import Mathlib

/-!
Verification of the thumbnail-generator service (`src/app.py`) against its
natural-language specification.

Modelling conventions.

Strings are modelled as lists of Unicode code points (`List ℕ`), restricted to
the ASCII fragment: the models of Python's `str.lower`, `str.lstrip` and
`int(_, 16)` treat non-ASCII code points as plain characters that are neither
digits nor whitespace (real Python additionally lowercases non-ASCII letters
and accepts non-ASCII decimal digits; no claim depends on such inputs).

Python floats are IEEE-754 binary64 values, and every arithmetic operation in
the source rounds its exact rational result to 53 significant bits
(round-to-nearest, ties-to-even).  The function `fl` below performs exactly
that rounding on ℚ.  Overflow and subnormals are not modelled: the magnitudes
occurring in the program (channels ≤ 255 in absolute value, clamped
dimensions, text lengths below 2^63) keep every intermediate value far inside
the normal binary64 range.

The `...C` functions (`flPC`, `gradChannelC`, `getFontSizeC`) are arithmetic
mirrors of the corresponding ℚ-level definitions, written so that the Lean
kernel can evaluate them on literals (Mathlib's ℚ operations do not reduce in
the kernel).  They are connected to the ℚ-level definitions by the bridge
theorems `gradChannel_eq_mirror` and `getFontSize_eq_mirror` below; all
concrete evaluation goes through those bridges.
-/

/-- Force a natural number to literal form before substituting it into a
continuation (evaluation-order helper for kernel reduction). -/
def seqN (n : ℕ) (f : ℕ → α) : α := match n with | 0 => f 0 | m + 1 => f (m + 1)

/-- Force both components of a pair of naturals before substituting them into
a continuation. -/
def seq2 (p : ℕ × ℕ) (f : ℕ → ℕ → α) : α :=
  match p with | (a, b) => seqN a fun a' => seqN b fun b' => f a' b'

/-- Floor of the base-2 logarithm for `1 ≤ n < 2^64`, by binary cascade. -/
def log2Small (n : ℕ) : ℕ :=
  seqN (if n / 2 ^ 0 < 2 ^ 32 then 0 else 0 + 32) fun a1 =>
  seqN (if n / 2 ^ a1 < 2 ^ 16 then a1 else a1 + 16) fun a2 =>
  seqN (if n / 2 ^ a2 < 2 ^ 8 then a2 else a2 + 8) fun a3 =>
  seqN (if n / 2 ^ a3 < 2 ^ 4 then a3 else a3 + 4) fun a4 =>
  seqN (if n / 2 ^ a4 < 2 ^ 2 then a4 else a4 + 2) fun a5 =>
  seqN (if n / 2 ^ a5 < 2 ^ 1 then a5 else a5 + 1) fun a6 =>
  a6

/-- Floor of the base-2 logarithm on ℕ, chunking 64 bits at a time; the fuel
argument only has to dominate the number of 64-bit chunks. -/
def log2natAux : ℕ → ℕ → ℕ
  | 0, _ => 0
  | fuel + 1, n =>
    if n < 18446744073709551616 then log2Small n
    else log2natAux fuel (n / 18446744073709551616) + 64

/-- Floor of the base-2 logarithm on ℕ: the largest `e` with `2 ^ e ≤ n`
(and `0` for `n = 0`). -/
def log2nat (n : ℕ) : ℕ := log2natAux n n

/-- Floor of the base-2 logarithm of the positive ratio `n / d`: the unique
`e` with `2 ^ e ≤ n / d < 2 ^ (e + 1)`. -/
def eLog (n d : ℕ) : ℤ :=
  seqN (log2nat d + 1) fun s =>
  (log2nat (n * 2 ^ s / d) : ℤ) - s

/-- Round a rational to the nearest integer, ties to even (IEEE default). -/
def rne (x : ℚ) : ℤ :=
  if x - (⌊x⌋ : ℚ) < 1/2 then ⌊x⌋
  else if 1/2 < x - (⌊x⌋ : ℚ) then ⌊x⌋ + 1
  else if ⌊x⌋ % 2 = 0 then ⌊x⌋ else ⌊x⌋ + 1

/-- Round a positive rational to 53 significant bits, ties to even. -/
def flPos (q : ℚ) : ℚ :=
  let e := eLog q.num.toNat q.den
  (rne (q * 2 ^ ((52 : ℤ) - e)) : ℚ) * 2 ^ (e - 52)

/-- IEEE-754 binary64 rounding of an exact rational value: round to nearest,
ties to even (overflow and subnormals are outside the modelled range). -/
def fl (q : ℚ) : ℚ :=
  if q = 0 then 0 else if 0 < q then flPos q else -flPos (-q)

/-- Python `int(_)` applied to a float: truncation toward zero. -/
def pyTrunc (q : ℚ) : ℤ := if q < 0 then -⌊-q⌋ else ⌊q⌋

/-- Mirror of `rne` on a ratio of naturals (kernel-evaluable). -/
def rneN (n d : ℕ) : ℕ :=
  seqN (n / d) fun f =>
  seqN (n % d) fun r =>
  if 2 * r < d then f else if d < 2 * r then f + 1
  else if f % 2 = 0 then f else f + 1

/-- Mirror of `fl` on a nonnegative ratio `n / d` (kernel-evaluable): returns
the rounded value as a ratio (numerator, positive denominator). -/
def flPC (n d : ℕ) : ℕ × ℕ :=
  if n = 0 then (0, 1) else
  seqN (log2nat d + 1) fun s =>
  seqN (log2nat (n * 2 ^ s / d)) fun t =>
  if t ≤ 52 + s then
    seqN (2 ^ (52 + s - t)) fun w => (rneN (n * w) d, w)
  else
    seqN (2 ^ (t - s - 52)) fun w => (rneN n (d * w) * w, 1)

/-- Channel value of gradient row `y` computed by `generate_gradient`
(src/app.py lines 55-58): `int(color1[i] * (1 - r) + color2[i] * r)` with
`r = y / height`, every operation performed in binary64 floating point. -/
def gradChannel (a b : ℤ) (y h : ℕ) : ℤ :=
  let r := fl ((y : ℚ) / (h : ℚ))
  let s := fl (1 - r)
  pyTrunc (fl (fl ((a : ℚ) * s) + fl ((b : ℚ) * r)))

/-- Kernel-evaluable mirror of `gradChannel` for nonnegative channels. -/
def gradChannelC (a b y h : ℕ) : ℕ :=
  seq2 (flPC y h) fun rn rd =>
  seq2 (flPC (rd - rn) rd) fun sn sd =>
  seq2 (flPC (a * sn) sd) fun pn pd =>
  seq2 (flPC (b * rn) rd) fun qn qd =>
  seq2 (flPC (pn * qd + qn * pd) (pd * qd)) fun vn vd =>
  vn / vd

/-- Colour of gradient row `y`: the three channel interpolations. -/
def gradRow (c1 c2 : ℤ × ℤ × ℤ) (y h : ℕ) : ℤ × ℤ × ℤ :=
  (gradChannel c1.1 c2.1 y h, gradChannel c1.2.1 c2.2.1 y h,
    gradChannel c1.2.2 c2.2.2 y h)

/-- The image produced by `generate_gradient` (src/app.py lines 41-59): `h`
rows, each drawn as one full-width horizontal line of the row's colour. -/
def generateGradient (w h : ℕ) (c1 c2 : ℤ × ℤ × ℤ) :
    List (List (ℤ × ℤ × ℤ)) :=
  (List.range h).map fun y => List.replicate w (gradRow c1 c2 y h)

/-- Pixel access: row `y`, column `x` of an image given as a list of rows. -/
def pixelAt (img : List (List (ℤ × ℤ × ℤ))) (x y : ℕ) :
    Option (ℤ × ℤ × ℤ) :=
  (img.get? y).bind fun row => row.get? x

/-- Font size computed by `get_font_size` (src/app.py lines 73-82):
`int(100 / (1 + 0.05 * abs(20 - length)))`, evaluated in binary64 floating
point (the literal `0.05` denotes the binary64 rounding of 1/20). -/
def getFontSize (L : ℕ) : ℤ :=
  let d : ℚ := ((20 - (L : ℤ)).natAbs : ℚ)
  pyTrunc (fl ((100 : ℚ) / fl (1 + fl (fl (1/20) * d))))

/-- Kernel-evaluable mirror of `getFontSize`. -/
def getFontSizeC (L : ℕ) : ℕ :=
  seqN (if L ≤ 20 then 20 - L else L - 20) fun d =>
  seq2 (flPC 1 20) fun cn cd =>
  seq2 (flPC (cn * d) cd) fun xn xd =>
  seq2 (flPC (xd + xn) xd) fun yn yd =>
  seq2 (flPC (100 * yd) yn) fun zn zd =>
  zn / zd

/-- Bounded universal check, written with a bare `Nat.rec` so that the kernel
evaluates it iteratively. -/
def allBelow (P : ℕ → Bool) (n : ℕ) : Bool :=
  Nat.rec true (fun m ih => P m && ih) n

/-- Dimension normalisation of `get_thumbnail` (src/app.py lines 112-130):
out-of-range values are replaced by the maximum bound when it is strictly
closer, and by the minimum bound otherwise. -/
def normalizeDim (v mn mx : ℤ) : ℤ :=
  if v ≤ mn ∨ mx ≤ v then
    if (v - mx).natAbs < (v - mn).natAbs then mx else mn
  else v

/-- Whitespace accepted by Python's `int` parser (ASCII fragment). -/
def pySpace (c : ℕ) : Bool :=
  decide (c = 32 ∨ c = 9 ∨ c = 10 ∨ c = 11 ∨ c = 12 ∨ c = 13 ∨
    c = 28 ∨ c = 29 ∨ c = 30 ∨ c = 31)

/-- Python `str.lower` on one code point (ASCII fragment). -/
def lowerAscii (c : ℕ) : ℕ := if 65 ≤ c ∧ c ≤ 90 then c + 32 else c

/-- Value of one hexadecimal digit (`0-9`, `a-f`, `A-F`), if any. -/
def hexDigitVal (c : ℕ) : Option ℕ :=
  if 48 ≤ c ∧ c ≤ 57 then some (c - 48)
  else if 97 ≤ c ∧ c ≤ 102 then some (c - 87)
  else if 65 ≤ c ∧ c ≤ 70 then some (c - 55)
  else none

/-- Python slice `s[i:j]` on a list of code points. -/
def pySlice (s : List ℕ) (i j : ℕ) : List ℕ := (s.take j).drop i

/-- Python `int(s, 16)`: optional surrounding whitespace, optional sign,
then at least one hexadecimal digit; `none` models the `ValueError`.
(Underscore separators and the `0x` prefix need ≥ 3 characters, so they
cannot occur in the 2-character slices the source parses.) -/
def intFromHex (s : List ℕ) : Option ℤ :=
  match s.dropWhile pySpace with
  | [] => none
  | c :: rest =>
    let sgn : ℤ := if c = 45 then -1 else 1
    let body := if c = 43 ∨ c = 45 then rest else c :: rest
    let digs := body.takeWhile fun d => (hexDigitVal d).isSome
    let tail := body.dropWhile fun d => (hexDigitVal d).isSome
    if digs = [] then none
    else if tail.all pySpace then
      some (sgn * digs.foldl (fun acc d => 16 * acc + ((hexDigitVal d).getD 0 : ℤ)) 0)
    else none

/-- Colour-string parsing of `get_thumbnail` (src/app.py lines 140-150):
strip leading `#` characters, lowercase, then parse the three slices
`[0:2]`, `[2:4]`, `[4:6]` with `int(_, 16)`; any failure (Python's
`ValueError`) yields `none`. -/
def colorFromHex (s : List ℕ) : Option (ℤ × ℤ × ℤ) :=
  let t := (s.dropWhile fun c => c == 35).map lowerAscii
  match intFromHex (pySlice t 0 2), intFromHex (pySlice t 2 4),
      intFromHex (pySlice t 4 6) with
  | some a, some b, some c => some (a, b, c)
  | _, _, _ => none

/-- Colour resolution of `get_thumbnail` (src/app.py lines 132-150): a missing
colour, or a present one whose parse raises, becomes the random triple `rnd`
(each component drawn by `random.randint(0, 255)`). -/
def resolveColor (s : Option (List ℕ)) (rnd : ℤ × ℤ × ℤ) : ℤ × ℤ × ℤ :=
  match s with
  | none => rnd
  | some str =>
    match colorFromHex str with
    | some t => t
    | none => rnd

/-- Text preprocessing of `get_thumbnail` (src/app.py line 177):
`text.replace("_", " ").replace("-", " ")`. -/
def replaceSeps (t : List ℕ) : List ℕ :=
  t.map fun c => if c = 95 ∨ c = 45 then 32 else c

/-- Python exceptions that can escape the modelled handler code. -/
inductive PyError where
  | attributeError : PyError
deriving DecidableEq

/-- The request handler `get_thumbnail` (src/app.py lines 97-182), up to the
PNG serialisation: clamp both dimensions, resolve both colours (with
independent random fallbacks `rt`, `rb`), render the gradient, then apply the
separator replacement to the text and hand image and text to the overlay
step.  A missing `text` hits `None.replace`, which raises `AttributeError`. -/
def getThumbnail (mnW mxW mnH mxH : ℤ) (w h : ℤ)
    (topc btmc : Option (List ℕ)) (text : Option (List ℕ))
    (rt rb : ℤ × ℤ × ℤ) :
    Except PyError (List (List (ℤ × ℤ × ℤ)) × List ℕ) :=
  let w' := normalizeDim w mnW mxW
  let h' := normalizeDim h mnH mxH
  let tc := resolveColor topc rt
  let bc := resolveColor btmc rb
  let img := generateGradient w'.toNat h'.toNat tc bc
  match text with
  | none => .error .attributeError
  | some t => .ok (img, replaceSeps t)

/-- A well-formed RGB triple: every channel in [0, 255]. -/
def validRGB (t : ℤ × ℤ × ℤ) : Prop :=
  0 ≤ t.1 ∧ t.1 ≤ 255 ∧ 0 ≤ t.2.1 ∧ t.2.1 ≤ 255 ∧ 0 ≤ t.2.2 ∧ t.2.2 ≤ 255

instance decValidRGB (t : ℤ × ℤ × ℤ) : Decidable (validRGB t) :=
  inferInstanceAs (Decidable
    (0 ≤ t.1 ∧ t.1 ≤ 255 ∧ 0 ≤ t.2.1 ∧ t.2.1 ≤ 255 ∧ 0 ≤ t.2.2 ∧ t.2.2 ≤ 255))

/-- Evaluation rule for the forcing helper `seqN`. -/
theorem seqN_eq (n : ℕ) (f : ℕ → α) : seqN n f = f n := by
  cases n <;> rfl

/-- Evaluation rule for the forcing helper `seq2`. -/
theorem seq2_eq (p : ℕ × ℕ) (f : ℕ → ℕ → α) : seq2 p f = f p.1 p.2 := by
  cases p
  simp [seq2, seqN_eq]

/-- One cascade stage of `log2Small` halves the bit bound. -/
theorem log2Small_step (n a c : ℕ) (ha : 1 ≤ n / 2 ^ a)
    (hb : n / 2 ^ a < 2 ^ c * 2 ^ c) :
    1 ≤ n / 2 ^ (if n / 2 ^ a < 2 ^ c then a else a + c) ∧
      n / 2 ^ (if n / 2 ^ a < 2 ^ c then a else a + c) < 2 ^ c := by
  by_cases hc : n / 2 ^ a < 2 ^ c
  · simp only [if_pos hc]
    exact ⟨ha, hc⟩
  · simp only [if_neg hc]
    have hd : n / 2 ^ (a + c) = n / 2 ^ a / 2 ^ c := by
      rw [pow_add, Nat.div_div_eq_div_mul]
    have hcpos : 0 < (2 : ℕ) ^ c := pow_pos (by norm_num) c
    constructor
    · rw [hd]
      exact (Nat.one_le_div_iff hcpos).2 (le_of_not_lt hc)
    · rw [hd]
      exact (Nat.div_lt_iff_lt_mul hcpos).2 hb

/-- Specification of the binary cascade `log2Small` on `[1, 2^64)`. -/
theorem log2Small_spec (n : ℕ) (h1 : 1 ≤ n) (h2 : n < 2 ^ 64) :
    2 ^ log2Small n ≤ n ∧ n < 2 ^ (log2Small n + 1) := by
  have key : 1 ≤ n / 2 ^ log2Small n ∧ n / 2 ^ log2Small n < 2 ^ 1 := by
    unfold log2Small
    simp only [seqN_eq]
    have h0 : 1 ≤ n / 2 ^ 0 := by simpa using h1
    have h0' : n / 2 ^ 0 < 2 ^ 32 * 2 ^ 32 := by
      simpa using h2.trans_le (by norm_num)
    have s1 := log2Small_step n 0 32 h0 h0'
    have s2 := log2Small_step n _ 16 s1.1 (s1.2.trans_le (by norm_num))
    have s3 := log2Small_step n _ 8 s2.1 (s2.2.trans_le (by norm_num))
    have s4 := log2Small_step n _ 4 s3.1 (s3.2.trans_le (by norm_num))
    have s5 := log2Small_step n _ 2 s4.1 (s4.2.trans_le (by norm_num))
    exact log2Small_step n _ 1 s5.1 (s5.2.trans_le (by norm_num))
  have hLpos : 0 < (2 : ℕ) ^ log2Small n := pow_pos (by norm_num) _
  refine ⟨(Nat.one_le_div_iff hLpos).1 key.1, ?_⟩
  have := (Nat.div_lt_iff_lt_mul hLpos).1 key.2
  calc n < 2 ^ 1 * 2 ^ log2Small n := this
    _ = 2 ^ (log2Small n + 1) := by ring

/-- Specification of the fuelled chunked logarithm. -/
theorem log2natAux_spec :
    ∀ fuel n, 1 ≤ n → n ≤ fuel →
      2 ^ log2natAux fuel n ≤ n ∧ n < 2 ^ (log2natAux fuel n + 1) := by
  intro fuel
  induction fuel with
  | zero => intro n h1 h2; omega
  | succ f ih =>
    intro n h1 h2
    unfold log2natAux
    by_cases hs : n < 18446744073709551616
    · simp only [if_pos hs]
      exact log2Small_spec n h1 (by norm_num at hs ⊢; exact hs)
    · simp only [if_neg hs]
      push_neg at hs
      have hb : (18446744073709551616 : ℕ) = 2 ^ 64 := by norm_num
      have hm1 : 1 ≤ n / 18446744073709551616 := by
        rw [Nat.one_le_div_iff (by norm_num)]
        exact hs
      have hmf : n / 18446744073709551616 ≤ f := by
        have hlt : n / 18446744073709551616 < n :=
          Nat.div_lt_self (by omega) (by norm_num)
        omega
      obtain ⟨ih1, ih2⟩ := ih (n / 18446744073709551616) hm1 hmf
      constructor
      · calc 2 ^ (log2natAux f (n / 18446744073709551616) + 64)
            = 2 ^ log2natAux f (n / 18446744073709551616) * 2 ^ 64 := by
              rw [pow_add]
          _ ≤ n / 18446744073709551616 * 2 ^ 64 :=
              Nat.mul_le_mul_right _ ih1
          _ ≤ n := by
              rw [← hb]
              exact Nat.div_mul_le_self n _
      · have hmod := Nat.div_add_mod n 18446744073709551616
        have hmlt : n % 18446744073709551616 < 18446744073709551616 :=
          Nat.mod_lt _ (by norm_num)
        calc n < (n / 18446744073709551616 + 1) * 18446744073709551616 := by
              omega
          _ ≤ 2 ^ (log2natAux f (n / 18446744073709551616) + 1) *
                18446744073709551616 := Nat.mul_le_mul_right _ ih2
          _ = 2 ^ (log2natAux f (n / 18446744073709551616) + 64 + 1) := by
              rw [hb]
              ring

/-- Specification of `log2nat`: it brackets every positive natural. -/
theorem log2nat_spec (n : ℕ) (h : 1 ≤ n) :
    2 ^ log2nat n ≤ n ∧ n < 2 ^ (log2nat n + 1) :=
  log2natAux_spec n n h le_rfl


/-- Specification of `eLog`: it brackets the positive ratio `n / d` between
consecutive integer powers of two. -/
theorem eLog_spec (n d : ℕ) (hn : 1 ≤ n) (hd : 1 ≤ d) :
    (2 : ℚ) ^ eLog n d ≤ (n : ℚ) / (d : ℚ) ∧
      (n : ℚ) / (d : ℚ) < 2 ^ (eLog n d + 1) := by
  have hdpos : 0 < d := hd
  unfold eLog
  rw [seqN_eq]
  set s := log2nat d + 1 with hs
  set N := n * 2 ^ s / d with hN
  have hds : d < 2 ^ s := (log2nat_spec d hd).2
  have hN1 : 1 ≤ N := by
    rw [hN, Nat.one_le_div_iff hdpos]
    calc d ≤ 2 ^ s := le_of_lt hds
      _ ≤ n * 2 ^ s := Nat.le_mul_of_pos_left _ hn
  obtain ⟨hL1, hL2⟩ := log2nat_spec N hN1
  set L := log2nat N with hL
  have hb1 : N * d ≤ n * 2 ^ s := Nat.div_mul_le_self _ _
  have hmod := Nat.div_add_mod (n * 2 ^ s) d
  have hrem : n * 2 ^ s % d < d := Nat.mod_lt _ hdpos
  have hb2 : n * 2 ^ s < (N + 1) * d := by
    calc n * 2 ^ s = d * N + n * 2 ^ s % d := hmod.symm
      _ < d * N + d := Nat.add_lt_add_left hrem _
      _ = (N + 1) * d := by ring
  have hdq : (0 : ℚ) < (d : ℚ) := by exact_mod_cast hdpos
  have hsq : (0 : ℚ) < (2 : ℚ) ^ s := by positivity
  have c1 : (N : ℚ) ≤ (n : ℚ) * 2 ^ s / d := by
    rw [le_div_iff hdq]
    exact_mod_cast hb1
  have c2 : (n : ℚ) * 2 ^ s / d < (N : ℚ) + 1 := by
    rw [div_lt_iff hdq]
    exact_mod_cast hb2
  have d1 : ((2 : ℚ)) ^ L ≤ (n : ℚ) * 2 ^ s / d :=
    le_trans (by exact_mod_cast hL1) c1
  have d2 : (n : ℚ) * 2 ^ s / d < ((2 : ℚ)) ^ (L + 1) := by
    refine lt_of_lt_of_le c2 ?_
    have : (N : ℚ) + 1 ≤ ((2 ^ (L + 1) : ℕ) : ℚ) := by exact_mod_cast hL2
    exact this.trans_eq (by push_cast; ring)
  have e1 : (2 : ℚ) ^ ((L : ℤ) - (s : ℤ)) = (2 : ℚ) ^ L / (2 : ℚ) ^ s := by
    rw [zpow_sub₀ (by norm_num : (2 : ℚ) ≠ 0), zpow_natCast, zpow_natCast]
  have e2 : (2 : ℚ) ^ ((L : ℤ) - (s : ℤ) + 1) =
      (2 : ℚ) ^ (L + 1) / (2 : ℚ) ^ s := by
    have : (L : ℤ) - (s : ℤ) + 1 = ((L + 1 : ℕ) : ℤ) - (s : ℤ) := by
      push_cast
      ring
    rw [this, zpow_sub₀ (by norm_num : (2 : ℚ) ≠ 0), zpow_natCast, zpow_natCast]
  constructor
  · rw [e1, div_le_div_iff hsq hdq]
    exact (le_div_iff hdq).1 d1
  · rw [e2, lt_div_iff hsq, div_mul_eq_mul_div, div_lt_iff hdq]
    exact (div_lt_iff hdq).1 d2

/-- Two integer powers of two bracketing the same rational are equal. -/
theorem bracket_unique (q : ℚ) (e e' : ℤ) (h1 : (2 : ℚ) ^ e ≤ q)
    (h2 : q < 2 ^ (e + 1)) (h3 : (2 : ℚ) ^ e' ≤ q) (h4 : q < 2 ^ (e' + 1)) :
    e = e' := by
  by_contra hne
  rcases lt_or_gt_of_ne hne with hlt | hgt
  · have : (2 : ℚ) ^ (e + 1) ≤ 2 ^ e' :=
      zpow_le_zpow_right₀ (by norm_num) (by omega)
    linarith
  · have : (2 : ℚ) ^ (e' + 1) ≤ 2 ^ e :=
      zpow_le_zpow_right₀ (by norm_num) (by omega)
    linarith

/-- Round-to-nearest never undershoots the floor. -/
theorem rne_ge_floor (x : ℚ) : ⌊x⌋ ≤ rne x := by
  unfold rne
  split_ifs <;> omega

/-- Round-to-nearest never overshoots the floor by more than one. -/
theorem rne_le_floor_add_one (x : ℚ) : rne x ≤ ⌊x⌋ + 1 := by
  unfold rne
  split_ifs <;> omega

/-- Round-to-nearest is within one half of its argument. -/
theorem rne_err (x : ℚ) : |(rne x : ℚ) - x| ≤ 1 / 2 := by
  have hf1 : (⌊x⌋ : ℚ) ≤ x := Int.floor_le x
  have hf2 : x < ⌊x⌋ + 1 := Int.lt_floor_add_one x
  unfold rne
  split_ifs with h1 h2 h3
  · rw [abs_le]
    constructor <;> linarith
  · rw [abs_le]
    push_cast
    constructor <;> linarith
  · rw [abs_le]
    constructor <;> linarith
  · rw [abs_le]
    push_cast
    constructor <;> linarith

/-- Round-to-nearest is the identity on integers. -/
theorem rne_intCast (k : ℤ) : rne (k : ℚ) = k := by
  unfold rne
  rw [Int.floor_intCast]
  norm_num

/-- The exponent used by `flPos` brackets its positive argument. -/
theorem eLog_q_spec (q : ℚ) (hq : 0 < q) :
    (2 : ℚ) ^ eLog q.num.toNat q.den ≤ q ∧
      q < 2 ^ (eLog q.num.toNat q.den + 1) := by
  have hnumZ : 0 < q.num := Rat.num_pos.2 hq
  have hnum : 1 ≤ q.num.toNat := by omega
  have hden : 1 ≤ q.den := q.den_pos
  have hcast : ((q.num.toNat : ℕ) : ℚ) / (q.den : ℚ) = q := by
    have h0 : ((q.num.toNat : ℕ) : ℤ) = q.num := Int.toNat_of_nonneg (le_of_lt hnumZ)
    have h1 : ((q.num.toNat : ℕ) : ℚ) = ((q.num : ℤ) : ℚ) := by
      exact_mod_cast congrArg (fun z : ℤ => (z : ℚ)) h0
    rw [h1, Rat.num_div_den]
  have := eLog_spec q.num.toNat q.den hnum hden
  rwa [hcast] at this

/-- Relative error of one 53-bit rounding of a positive rational. -/
theorem flPos_err (q : ℚ) (hq : 0 < q) :
    |flPos q - q| ≤ q * (2 : ℚ) ^ (-53 : ℤ) := by
  obtain ⟨he1, he2⟩ := eLog_q_spec q hq
  set e := eLog q.num.toNat q.den with he
  have h2 : (2 : ℚ) ≠ 0 := by norm_num
  have hqz : q = q * 2 ^ ((52 : ℤ) - e) * 2 ^ (e - 52) := by
    rw [mul_assoc, ← zpow_add₀ h2]
    norm_num
  have hflp : flPos q = (rne (q * 2 ^ ((52 : ℤ) - e)) : ℚ) * 2 ^ (e - 52) := rfl
  have hdiff : flPos q - q =
      ((rne (q * 2 ^ ((52 : ℤ) - e)) : ℚ) - q * 2 ^ ((52 : ℤ) - e)) *
        2 ^ (e - 52) := by
    rw [hflp]
    nth_rewrite 2 [hqz]
    ring
  have hpow : (0 : ℚ) < 2 ^ (e - 52 : ℤ) := zpow_pos (by norm_num) _
  rw [hdiff, abs_mul, abs_of_pos hpow]
  calc |(rne (q * 2 ^ ((52 : ℤ) - e)) : ℚ) - q * 2 ^ ((52 : ℤ) - e)| *
        2 ^ (e - 52 : ℤ)
      ≤ 1 / 2 * 2 ^ (e - 52 : ℤ) :=
        mul_le_mul_of_nonneg_right (rne_err _) (le_of_lt hpow)
    _ = 2 ^ e * 2 ^ (-53 : ℤ) := by
        have h12 : (1 : ℚ) / 2 = 2 ^ (-1 : ℤ) := by norm_num
        rw [h12, ← zpow_add₀ h2, ← zpow_add₀ h2]
        congr 1
        ring
    _ ≤ q * 2 ^ (-53 : ℤ) :=
        mul_le_mul_of_nonneg_right he1 (le_of_lt (zpow_pos (by norm_num) _))

/-- Relative error of the binary64 rounding `fl`. -/
theorem fl_err (q : ℚ) : |fl q - q| ≤ |q| * (2 : ℚ) ^ (-53 : ℤ) := by
  unfold fl
  split_ifs with h0 hpos
  · simp [h0]
  · rw [abs_of_pos hpos]
    exact flPos_err q hpos
  · have hneg : 0 < -q := by
      rcases lt_trichotomy q 0 with h | h | h
      · linarith
      · exact absurd h h0
      · exact absurd h hpos
    have := flPos_err (-q) hneg
    calc |-flPos (-q) - q| = |flPos (-q) - -q| := by
          rw [show -flPos (-q) - q = -(flPos (-q) - -q) by ring, abs_neg]
      _ ≤ -q * 2 ^ (-53 : ℤ) := this
      _ = |q| * 2 ^ (-53 : ℤ) := by
          rw [abs_of_neg (by linarith : q < 0)]

/-- Numeric value of the rounding unit. -/
theorem eps_val : (2 : ℚ) ^ (-53 : ℤ) = 1 / 9007199254740992 := by
  norm_num

/-- Upper bound of one rounding on a nonnegative argument. -/
theorem fl_le_bound (q : ℚ) (h : 0 ≤ q) :
    fl q ≤ q * (1 + (2 : ℚ) ^ (-53 : ℤ)) := by
  have := (abs_le.1 (fl_err q)).2
  rw [abs_of_nonneg h] at this
  nlinarith

/-- Lower bound of one rounding on a nonnegative argument. -/
theorem fl_ge_bound (q : ℚ) (h : 0 ≤ q) :
    q * (1 - (2 : ℚ) ^ (-53 : ℤ)) ≤ fl q := by
  have := (abs_le.1 (fl_err q)).1
  rw [abs_of_nonneg h] at this
  nlinarith

/-- Rounding preserves nonnegativity. -/
theorem fl_nonneg (q : ℚ) (h : 0 ≤ q) : 0 ≤ fl q := by
  have hb := fl_ge_bound q h
  rw [eps_val] at hb
  have h2 : (0 : ℚ) ≤ q * (1 - 1 / 9007199254740992) :=
    mul_nonneg h (by norm_num)
  linarith

/-- Rounding preserves positivity. -/
theorem fl_pos (q : ℚ) (h : 0 < q) : 0 < fl q := by
  have hb := fl_ge_bound q (le_of_lt h)
  rw [eps_val] at hb
  have h2 : (0 : ℚ) < q * (1 - 1 / 9007199254740992) :=
    mul_pos h (by norm_num)
  linarith

/-- Rounding is zero only at zero (contrapositive form used below). -/
theorem fl_zero : fl 0 = 0 := by
  simp [fl]

/-- Binary64 rounding is the identity on integers of magnitude below `2^53`. -/
theorem fl_intCast (k : ℤ) (h0 : 0 ≤ k) (hk : k < 2 ^ 53) : fl (k : ℚ) = k := by
  rcases eq_or_lt_of_le h0 with h | hpos
  · rw [← h]
    simp [fl]
  have hq : (0 : ℚ) < (k : ℚ) := by exact_mod_cast hpos
  have hfl : fl (k : ℚ) = flPos (k : ℚ) := by
    unfold fl
    rw [if_neg (ne_of_gt hq), if_pos hq]
  obtain ⟨he1, he2⟩ := eLog_q_spec (k : ℚ) hq
  set e := eLog (k : ℚ).num.toNat (k : ℚ).den with he
  have he52 : e ≤ 52 := by
    by_contra hgt
    push_neg at hgt
    have h53 : (2 : ℚ) ^ (53 : ℤ) ≤ 2 ^ e :=
      zpow_le_zpow_right₀ (by norm_num) (by omega)
    have hk' : (k : ℚ) < 2 ^ (53 : ℤ) := by
      have : ((2 : ℤ) ^ 53 : ℤ) = (2 ^ (53 : ℕ) : ℤ) := by norm_num
      show (k : ℚ) < 2 ^ (53 : ℤ)
      calc (k : ℚ) < ((2 ^ 53 : ℤ) : ℚ) := by exact_mod_cast hk
        _ = 2 ^ (53 : ℤ) := by push_cast; norm_num
    linarith
  set m := ((52 : ℤ) - e).toNat with hm
  have hm' : ((52 : ℤ) - e) = (m : ℤ) := (Int.toNat_of_nonneg (by omega)).symm
  have hz : (k : ℚ) * 2 ^ ((52 : ℤ) - e) = ((k * 2 ^ m : ℤ) : ℚ) := by
    rw [hm']
    push_cast
    rw [zpow_natCast]
  have hrne : rne ((k : ℚ) * 2 ^ ((52 : ℤ) - e)) = k * 2 ^ m := by
    rw [hz, rne_intCast]
  rw [hfl]
  show (rne ((k : ℚ) * 2 ^ ((52 : ℤ) - e)) : ℚ) * 2 ^ (e - 52) = k
  rw [hrne]
  have h2 : (2 : ℚ) ≠ 0 := by norm_num
  push_cast
  rw [← zpow_natCast (2 : ℚ) m, mul_assoc, ← zpow_add₀ h2]
  have hz0 : (m : ℤ) + (e - 52) = 0 := by omega
  rw [hz0]
  simp

/-- Floor of a ratio of naturals is natural division. -/
theorem floor_nat_div (a d : ℕ) : ⌊(a : ℚ) / (d : ℚ)⌋ = ((a / d : ℕ) : ℤ) := by
  have h1 : ((a : ℚ)) = (((a : ℤ) : ℚ)) := by push_cast; ring
  rw [h1, Rat.floor_intCast_div_natCast]
  exact (Int.ofNat_div a d).symm

/-- The natural-ratio rounding `rneN` agrees with `rne`. -/
theorem rneN_eq (a d : ℕ) (hd : 0 < d) :
    (rneN a d : ℤ) = rne ((a : ℚ) / (d : ℚ)) := by
  have hdq : (0 : ℚ) < (d : ℚ) := by exact_mod_cast hd
  have hfloor : ⌊(a : ℚ) / (d : ℚ)⌋ = ((a / d : ℕ) : ℤ) := floor_nat_div a d
  have hmodc : (a : ℚ) = (d : ℚ) * ((a / d : ℕ) : ℚ) + ((a % d : ℕ) : ℚ) := by
    exact_mod_cast congrArg (fun m : ℕ => (m : ℚ)) (Nat.div_add_mod a d).symm
  have hfrac : (a : ℚ) / (d : ℚ) - (((a / d : ℕ) : ℤ) : ℚ) =
      ((a % d : ℕ) : ℚ) / d := by
    have hcc : (((a / d : ℕ) : ℤ) : ℚ) = ((a / d : ℕ) : ℚ) := by norm_cast
    rw [hcc, eq_div_iff (ne_of_gt hdq), sub_mul, div_mul_cancel₀ _ (ne_of_gt hdq)]
    linarith [hmodc]
  have hc1 : ((a : ℚ) / (d : ℚ) - (((a / d : ℕ) : ℤ) : ℚ) < 1/2) ↔
      (2 * (a % d) < d) := by
    rw [hfrac, div_lt_iff hdq]
    constructor
    · intro h
      have h2 : ((2 * (a % d) : ℕ) : ℚ) < (d : ℚ) := by push_cast; linarith
      exact_mod_cast h2
    · intro h
      have h2 : ((2 * (a % d) : ℕ) : ℚ) < d := by exact_mod_cast h
      push_cast at h2
      linarith
  have hc2 : (1/2 < (a : ℚ) / (d : ℚ) - (((a / d : ℕ) : ℤ) : ℚ)) ↔
      (d < 2 * (a % d)) := by
    rw [hfrac, lt_div_iff hdq]
    constructor
    · intro h
      have h2 : (d : ℚ) < (2 * (a % d) : ℕ) := by push_cast; linarith
      exact_mod_cast h2
    · intro h
      have h2 : (d : ℚ) < ((2 * (a % d) : ℕ) : ℚ) := by exact_mod_cast h
      push_cast at h2
      linarith
  have hpar : ((((a / d : ℕ) : ℤ)) % 2 = 0) ↔ ((a / d) % 2 = 0) := by
    omega
  unfold rne
  rw [hfloor]
  simp only [hc1, hc2, hpar]
  unfold rneN
  rw [seqN_eq, seqN_eq]
  split_ifs <;> push_cast <;> ring

/-- The mirror rounding `flPC` computes `fl` on nonnegative ratios: its result
pair has a positive denominator and the same rational value. -/
theorem flPC_eq (n d : ℕ) (hd : 0 < d) :
    0 < (flPC n d).2 ∧
      (((flPC n d).1 : ℕ) : ℚ) / (((flPC n d).2 : ℕ) : ℚ) =
        fl ((n : ℚ) / (d : ℚ)) := by
  rcases Nat.eq_zero_or_pos n with hn | hn
  · subst hn
    refine ⟨by simp [flPC], ?_⟩
    simp [flPC, fl]
  have hn0 : n ≠ 0 := by omega
  have hq : (0 : ℚ) < (n : ℚ) / (d : ℚ) :=
    div_pos (by exact_mod_cast hn) (by exact_mod_cast hd)
  have hfl : fl ((n : ℚ) / d) = flPos ((n : ℚ) / d) := by
    unfold fl
    rw [if_neg (ne_of_gt hq), if_pos hq]
  obtain ⟨hb1, hb2⟩ := eLog_spec n d hn hd
  have hqb := eLog_q_spec ((n : ℚ) / (d : ℚ)) hq
  have heq : eLog ((n : ℚ) / (d : ℚ)).num.toNat ((n : ℚ) / (d : ℚ)).den =
      eLog n d :=
    bracket_unique ((n : ℚ) / (d : ℚ)) _ _ hqb.1 hqb.2 hb1 hb2
  unfold flPC
  rw [if_neg hn0, seqN_eq, seqN_eq]
  set s := log2nat d + 1 with hs
  set t := log2nat (n * 2 ^ s / d) with ht
  have het : eLog n d = (t : ℤ) - (s : ℤ) := by
    rw [ht, hs]
    unfold eLog
    rw [seqN_eq]
  by_cases hbr : t ≤ 52 + s
  · rw [if_pos hbr, seqN_eq]
    have hw : (0 : ℕ) < 2 ^ (52 + s - t) := pow_pos (by norm_num) _
    refine ⟨by simpa using hw, ?_⟩
    have hrne := rneN_eq (n * 2 ^ (52 + s - t)) d hd
    rw [hfl]
    unfold flPos
    rw [heq]
    show ((rneN (n * 2 ^ (52 + s - t)) d : ℕ) : ℚ) / ((2 ^ (52 + s - t) : ℕ) : ℚ) =
      (rne ((n : ℚ) / (d : ℚ) * 2 ^ ((52 : ℤ) - eLog n d)) : ℚ) *
        2 ^ (eLog n d - 52)
    have hexp : ((52 : ℤ) - eLog n d) = ((52 + s - t : ℕ) : ℤ) := by
      rw [het]
      omega
    have harg : (n : ℚ) / (d : ℚ) * 2 ^ ((52 : ℤ) - eLog n d) =
        ((n * 2 ^ (52 + s - t) : ℕ) : ℚ) / (d : ℚ) := by
      rw [hexp]
      push_cast
      rw [zpow_natCast]
      ring
    rw [harg, ← hrne]
    have hneg : (eLog n d - 52 : ℤ) = -((52 + s - t : ℕ) : ℤ) := by
      rw [het]
      omega
    rw [hneg, zpow_neg, div_eq_mul_inv]
    congr 1
    have hpw : ((2 ^ (52 + s - t) : ℕ) : ℚ) =
        (2 : ℚ) ^ ((52 + s - t : ℕ) : ℤ) := by
      push_cast
      rw [zpow_natCast]
    rw [hpw]
  · rw [if_neg hbr, seqN_eq]
    refine ⟨by norm_num, ?_⟩
    have hw : (0 : ℕ) < 2 ^ (t - s - 52) := pow_pos (by norm_num) _
    have hdw : 0 < d * 2 ^ (t - s - 52) := Nat.mul_pos hd hw
    have hrne := rneN_eq n (d * 2 ^ (t - s - 52)) hdw
    rw [hfl]
    unfold flPos
    rw [heq]
    show ((rneN n (d * 2 ^ (t - s - 52)) * 2 ^ (t - s - 52) : ℕ) : ℚ) /
        ((1 : ℕ) : ℚ) =
      (rne ((n : ℚ) / (d : ℚ) * 2 ^ ((52 : ℤ) - eLog n d)) : ℚ) *
        2 ^ (eLog n d - 52)
    push_neg at hbr
    have hexp : ((52 : ℤ) - eLog n d) = -((t - s - 52 : ℕ) : ℤ) := by
      rw [het]
      omega
    have harg : (n : ℚ) / (d : ℚ) * 2 ^ ((52 : ℤ) - eLog n d) =
        (n : ℚ) / ((d * 2 ^ (t - s - 52) : ℕ) : ℚ) := by
      rw [hexp, zpow_neg]
      push_cast
      rw [zpow_natCast]
      ring
    rw [harg, ← hrne]
    have hneg : (eLog n d - 52 : ℤ) = ((t - s - 52 : ℕ) : ℤ) := by
      rw [het]
      omega
    rw [hneg]
    push_cast
    rw [zpow_natCast]
    ring

/-- The mirror `gradChannelC` computes `gradChannel` for nonnegative channels
and in-range rows. -/
theorem gradChannel_eq_mirror (a b : ℤ) (y h : ℕ) (ha : 0 ≤ a) (hb : 0 ≤ b)
    (hy : y < h) (hh : h ≤ 2 ^ 52) :
    gradChannel a b y h = ((gradChannelC a.toNat b.toNat y h : ℕ) : ℤ) := by
  have hh0 : 0 < h := by omega
  have hhq : (0 : ℚ) < (h : ℚ) := by exact_mod_cast hh0
  obtain ⟨hr2, hrv⟩ := flPC_eq y h hh0
  set rn := (flPC y h).1 with hrn
  set rd := (flPC y h).2 with hrd
  have hrdq : (0 : ℚ) < (rd : ℚ) := by exact_mod_cast hr2
  have hyle : (y : ℚ) ≤ (h : ℚ) - 1 := by
    have hca : (y : ℚ) + 1 ≤ (h : ℚ) := by exact_mod_cast hy
    linarith
  have hrle1 : fl ((y : ℚ) / (h : ℚ)) ≤ 1 := by
    have h1 := fl_le_bound ((y : ℚ) / (h : ℚ)) (by positivity)
    rw [eps_val] at h1
    have h2 : (y : ℚ) / (h : ℚ) ≤ ((h : ℚ) - 1) / (h : ℚ) := by gcongr
    have hH : (h : ℚ) ≤ 4503599627370496 := by
      have : ((h : ℕ) : ℚ) ≤ ((2 ^ 52 : ℕ) : ℚ) := by exact_mod_cast hh
      calc (h : ℚ) ≤ ((2 ^ 52 : ℕ) : ℚ) := this
        _ = 4503599627370496 := by norm_num
    have h3 : ((h : ℚ) - 1) / (h : ℚ) * (1 + 1 / 9007199254740992) ≤ 1 := by
      rw [div_mul_eq_mul_div, div_le_one hhq]
      nlinarith
    calc fl ((y : ℚ) / (h : ℚ))
        ≤ (y : ℚ) / (h : ℚ) * (1 + 1 / 9007199254740992) := h1
      _ ≤ ((h : ℚ) - 1) / (h : ℚ) * (1 + 1 / 9007199254740992) :=
          mul_le_mul_of_nonneg_right h2 (by norm_num)
      _ ≤ 1 := h3
  have hrnrd : rn ≤ rd := by
    have hle : (rn : ℚ) / (rd : ℚ) ≤ 1 := by
      rw [hrv]
      exact hrle1
    have := (div_le_one hrdq).1 hle
    exact_mod_cast this
  have hsub : ((rd - rn : ℕ) : ℚ) / (rd : ℚ) = 1 - fl ((y : ℚ) / (h : ℚ)) := by
    rw [← hrv, Nat.cast_sub hrnrd]
    field_simp
  obtain ⟨hs2, hsv⟩ := flPC_eq (rd - rn) rd hr2
  rw [hsub] at hsv
  set sn := (flPC (rd - rn) rd).1 with hsn
  set sd := (flPC (rd - rn) rd).2 with hsd
  obtain ⟨hp2, hpv⟩ := flPC_eq (a.toNat * sn) sd hs2
  have hax : ((a.toNat : ℕ) : ℚ) = (a : ℚ) := by
    have h0 := Int.toNat_of_nonneg ha
    exact_mod_cast congrArg (fun z : ℤ => (z : ℚ)) h0
  have hparg : ((a.toNat * sn : ℕ) : ℚ) / (sd : ℚ) =
      (a : ℚ) * ((sn : ℚ) / (sd : ℚ)) := by
    push_cast
    rw [hax]
    ring
  rw [hparg, hsv] at hpv
  set pn := (flPC (a.toNat * sn) sd).1 with hpn
  set pd := (flPC (a.toNat * sn) sd).2 with hpd
  obtain ⟨hq2, hqv⟩ := flPC_eq (b.toNat * rn) rd hr2
  have hbx : ((b.toNat : ℕ) : ℚ) = (b : ℚ) := by
    have h0 := Int.toNat_of_nonneg hb
    exact_mod_cast congrArg (fun z : ℤ => (z : ℚ)) h0
  have hqarg : ((b.toNat * rn : ℕ) : ℚ) / (rd : ℚ) =
      (b : ℚ) * ((rn : ℚ) / (rd : ℚ)) := by
    push_cast
    rw [hbx]
    ring
  rw [hqarg, hrv] at hqv
  set qn := (flPC (b.toNat * rn) rd).1 with hqn
  set qd := (flPC (b.toNat * rn) rd).2 with hqd
  obtain ⟨hv2, hvv⟩ :=
    flPC_eq (pn * qd + qn * pd) (pd * qd) (Nat.mul_pos hp2 hq2)
  have hvarg : ((pn * qd + qn * pd : ℕ) : ℚ) / ((pd * qd : ℕ) : ℚ) =
      (pn : ℚ) / (pd : ℚ) + (qn : ℚ) / (qd : ℚ) := by
    have hpdq : ((pd : ℕ) : ℚ) ≠ 0 := by
      have : (0 : ℚ) < (pd : ℚ) := by exact_mod_cast hp2
      exact ne_of_gt this
    have hqdq : ((qd : ℕ) : ℚ) ≠ 0 := by
      have : (0 : ℚ) < (qd : ℚ) := by exact_mod_cast hq2
      exact ne_of_gt this
    push_cast
    field_simp
  rw [hvarg, hpv, hqv] at hvv
  set vn := (flPC (pn * qd + qn * pd) (pd * qd)).1 with hvn
  set vd := (flPC (pn * qd + qn * pd) (pd * qd)).2 with hvd
  have htr : pyTrunc ((vn : ℚ) / (vd : ℚ)) = ((vn / vd : ℕ) : ℤ) := by
    unfold pyTrunc
    rw [if_neg (not_lt.2 (div_nonneg (Nat.cast_nonneg vn) (Nat.cast_nonneg vd)))]
    exact floor_nat_div vn vd
  have hrhs : gradChannelC a.toNat b.toNat y h = vn / vd := by
    simp only [gradChannelC, seq2_eq]
  rw [hrhs]
  show pyTrunc (fl (fl ((a : ℚ) * fl (1 - fl ((y : ℚ) / (h : ℚ)))) +
      fl ((b : ℚ) * fl ((y : ℚ) / (h : ℚ))))) = ((vn / vd : ℕ) : ℤ)
  rw [← hvv]
  exact htr

/-- The mirror `getFontSizeC` computes `getFontSize` for every length. -/
theorem getFontSize_eq_mirror (L : ℕ) :
    getFontSize L = ((getFontSizeC L : ℕ) : ℤ) := by
  set dn := (20 - (L : ℤ)).natAbs with hdn
  have hd : (if L ≤ 20 then 20 - L else L - 20) = dn := by
    rw [hdn]
    by_cases hL : L ≤ 20
    · simp only [if_pos hL]
      omega
    · simp only [if_neg hL]
      omega
  obtain ⟨hc2, hcv⟩ := flPC_eq 1 20 (by norm_num)
  have hc120 : ((1 : ℕ) : ℚ) / ((20 : ℕ) : ℚ) = (1 : ℚ) / 20 := by norm_num
  rw [hc120] at hcv
  set cn := (flPC 1 20).1 with hcn
  set cd := (flPC 1 20).2 with hcd
  obtain ⟨hx2, hxv⟩ := flPC_eq (cn * dn) cd hc2
  have hxarg : ((cn * dn : ℕ) : ℚ) / (cd : ℚ) =
      ((cn : ℚ) / (cd : ℚ)) * (dn : ℚ) := by
    push_cast
    ring
  rw [hxarg, hcv] at hxv
  set xn := (flPC (cn * dn) cd).1 with hxn
  set xd := (flPC (cn * dn) cd).2 with hxd
  obtain ⟨hy2, hyv⟩ := flPC_eq (xd + xn) xd hx2
  have hxdq : ((xd : ℕ) : ℚ) ≠ 0 := by
    have : (0 : ℚ) < (xd : ℚ) := by exact_mod_cast hx2
    exact ne_of_gt this
  have hyarg : ((xd + xn : ℕ) : ℚ) / (xd : ℚ) = 1 + (xn : ℚ) / (xd : ℚ) := by
    push_cast
    field_simp
  rw [hyarg, hxv] at hyv
  set yn := (flPC (xd + xn) xd).1 with hyn
  set yd := (flPC (xd + xn) xd).2 with hyd
  have hflx_nonneg : (0 : ℚ) ≤ fl (fl (1 / 20) * (dn : ℚ)) := by
    apply fl_nonneg
    apply mul_nonneg
    · exact fl_nonneg _ (by norm_num)
    · exact Nat.cast_nonneg dn
  have hypos : (0 : ℚ) < (yn : ℚ) / (yd : ℚ) := by
    rw [hyv]
    apply fl_pos
    linarith
  have hyn0 : 0 < yn := by
    by_contra hcon
    push_neg at hcon
    interval_cases yn
    simp at hypos
  obtain ⟨hz2, hzv⟩ := flPC_eq (100 * yd) yn hyn0
  have hynq : ((yn : ℕ) : ℚ) ≠ 0 := by
    have : (0 : ℚ) < (yn : ℚ) := by exact_mod_cast hyn0
    exact ne_of_gt this
  have hydq : ((yd : ℕ) : ℚ) ≠ 0 := by
    have : (0 : ℚ) < (yd : ℚ) := by exact_mod_cast hy2
    exact ne_of_gt this
  have hzarg : ((100 * yd : ℕ) : ℚ) / (yn : ℚ) =
      100 / ((yn : ℚ) / (yd : ℚ)) := by
    push_cast
    field_simp
  rw [hzarg, hyv] at hzv
  set zn := (flPC (100 * yd) yn).1 with hzn
  set zd := (flPC (100 * yd) yn).2 with hzd
  have htr : pyTrunc ((zn : ℚ) / (zd : ℚ)) = ((zn / zd : ℕ) : ℤ) := by
    unfold pyTrunc
    rw [if_neg (not_lt.2 (div_nonneg (Nat.cast_nonneg zn) (Nat.cast_nonneg zd)))]
    exact floor_nat_div zn zd
  have hrhs : getFontSizeC L = zn / zd := by
    simp only [getFontSizeC, seqN_eq, seq2_eq, hd]
  rw [hrhs]
  show pyTrunc (fl ((100 : ℚ) / fl (1 + fl (fl (1 / 20) * (dn : ℚ))))) =
    ((zn / zd : ℕ) : ℤ)
  rw [← hzv]
  exact htr

/-- Soundness of the bounded check `allBelow`. -/
theorem allBelow_sound (P : ℕ → Bool) (n : ℕ) (hall : allBelow P n = true) :
    ∀ i, i < n → P i = true := by
  induction n with
  | zero => intro i hi; omega
  | succ m ih =>
    have hstep : allBelow P (m + 1) = (P m && allBelow P m) := rfl
    rw [hstep, Bool.and_eq_true] at hall
    intro i hi
    rcases Nat.lt_succ_iff_lt_or_eq.1 hi with hlt | heq
    · exact ih hall.2 i hlt
    · subst heq
      exact hall.1

set_option maxRecDepth 40000 in
set_option maxHeartbeats 4000000 in
/-- Exhaustive check: over heights 1..1024, the bottom row of a
white-to-black gradient is exactly black precisely when the height is at
least 255 (binary64 arithmetic). -/
theorem gradLast_sweep :
    allBelow
      (fun h => decide (gradChannelC 255 0 (h - 1) h = 0 ↔ 255 ≤ h))
      1025 = true := by
  rfl

/-- Transfer of `gradLast_sweep` to the ℚ-level gradient channel. -/
theorem gradLast_iff (h : ℕ) (h1 : 0 < h) (h2 : h ≤ 1024) :
    (gradChannel 255 0 (h - 1) h = 0 ↔ 255 ≤ h) := by
  have hch := allBelow_sound _ _ gradLast_sweep h (by omega)
  have hiff := of_decide_eq_true hch
  have hbr := gradChannel_eq_mirror 255 0 (h - 1) h (by norm_num) (by norm_num)
    (by omega) (by calc h ≤ 1024 := h2
                    _ ≤ 2 ^ 52 := by norm_num)
  rw [hbr]
  constructor
  · intro hz
    apply hiff.1
    exact_mod_cast hz
  · intro hge
    have := hiff.2 hge
    exact_mod_cast this

set_option maxRecDepth 40000 in
set_option maxHeartbeats 8000000 in
/-- Exhaustive check: for lengths 0..2000, the binary64 font-size computation
agrees with the exact integer formula `2000 / (20 + |20 - L|)`. -/
theorem fontSize_sweep :
    allBelow
      (fun L => decide
        (getFontSizeC L = 2000 / (20 + (if L ≤ 20 then 20 - L else L - 20))))
      2001 = true := by
  rfl

/-- Transfer of `fontSize_sweep`: closed form of the font size for lengths up
to 2000. -/
theorem fontSize_closed_small (L : ℕ) (hL : L ≤ 2000) :
    getFontSize L = ((2000 / (20 + (20 - (L : ℤ)).natAbs) : ℕ) : ℤ) := by
  have hch := allBelow_sound _ _ fontSize_sweep L (by omega)
  have heq := of_decide_eq_true hch
  have hite : (if L ≤ 20 then 20 - L else L - 20) = (20 - (L : ℤ)).natAbs := by
    by_cases hc : L ≤ 20
    · simp only [if_pos hc]
      omega
    · simp only [if_neg hc]
      omega
  rw [getFontSize_eq_mirror, heq, hite]

/-- Concrete value of the binary64 literal `0.05`. -/
theorem fl_one_twentieth :
    fl (1 / 20 : ℚ) = 7205759403792794 / 144115188075855872 := by
  have hpair : flPC 1 20 = (7205759403792794, 144115188075855872) := by rfl
  obtain ⟨_, hv⟩ := flPC_eq 1 20 (by norm_num)
  rw [hpair] at hv
  have hlhs : (((7205759403792794, 144115188075855872).1 : ℕ) : ℚ) /
      (((7205759403792794, 144115188075855872).2 : ℕ) : ℚ) =
      (7205759403792794 : ℚ) / 144115188075855872 := by norm_num
  have hrhs : ((1 : ℕ) : ℚ) / ((20 : ℕ) : ℚ) = (1 / 20 : ℚ) := by norm_num
  rw [hlhs, hrhs] at hv
  exact hv.symm

/-- For texts longer than 2000 characters the computed font size is zero. -/
theorem fontSize_large (L : ℕ) (hL : 2000 < L) : getFontSize L = 0 := by
  have hdq : (1981 : ℚ) ≤ ((20 - (L : ℤ)).natAbs : ℚ) := by
    have : (1981 : ℕ) ≤ (20 - (L : ℤ)).natAbs := by omega
    exact_mod_cast this
  set dq : ℚ := ((20 - (L : ℤ)).natAbs : ℚ) with hdqdef
  have hdq0 : (0 : ℚ) ≤ dq := by linarith
  have hcpos : (0 : ℚ) < fl (1 / 20) := by
    rw [fl_one_twentieth]
    norm_num
  have hprod_ge : (99.05 : ℚ) ≤ fl (1 / 20) * dq := by
    calc (99.05 : ℚ) ≤ (7205759403792794 / 144115188075855872) * 1981 := by
          norm_num
      _ ≤ fl (1 / 20) * dq := by
          rw [fl_one_twentieth]
          exact mul_le_mul_of_nonneg_left hdq (by norm_num)
  have hx_ge : (99.04 : ℚ) ≤ fl (fl (1 / 20) * dq) := by
    have hb := fl_ge_bound (fl (1 / 20) * dq) (by nlinarith)
    rw [eps_val] at hb
    have h1 : (99.05 : ℚ) * (1 - 1 / 9007199254740992) ≤
        fl (1 / 20) * dq * (1 - 1 / 9007199254740992) :=
      mul_le_mul_of_nonneg_right hprod_ge (by norm_num)
    have h2 : (99.04 : ℚ) ≤ (99.05 : ℚ) * (1 - 1 / 9007199254740992) := by
      norm_num
    linarith
  have hy_ge : (100.03 : ℚ) ≤ fl (1 + fl (fl (1 / 20) * dq)) := by
    have hb := fl_ge_bound (1 + fl (fl (1 / 20) * dq)) (by linarith)
    rw [eps_val] at hb
    have h1 : (100.04 : ℚ) * (1 - 1 / 9007199254740992) ≤
        (1 + fl (fl (1 / 20) * dq)) * (1 - 1 / 9007199254740992) :=
      mul_le_mul_of_nonneg_right (by linarith) (by norm_num)
    have h2 : (100.03 : ℚ) ≤ (100.04 : ℚ) * (1 - 1 / 9007199254740992) := by
      norm_num
    linarith
  have hy_pos : (0 : ℚ) < fl (1 + fl (fl (1 / 20) * dq)) := by linarith
  have harg_le : (100 : ℚ) / fl (1 + fl (fl (1 / 20) * dq)) ≤ 0.9998 := by
    rw [div_le_iff hy_pos]
    nlinarith
  have harg_nonneg : (0 : ℚ) ≤ (100 : ℚ) / fl (1 + fl (fl (1 / 20) * dq)) :=
    div_nonneg (by norm_num) (le_of_lt hy_pos)
  have hz_lt : fl ((100 : ℚ) / fl (1 + fl (fl (1 / 20) * dq))) < 1 := by
    have hb := fl_le_bound _ harg_nonneg
    rw [eps_val] at hb
    have h1 : (100 : ℚ) / fl (1 + fl (fl (1 / 20) * dq)) *
        (1 + 1 / 9007199254740992) ≤
        (0.9998 : ℚ) * (1 + 1 / 9007199254740992) :=
      mul_le_mul_of_nonneg_right harg_le (by norm_num)
    have h2 : (0.9998 : ℚ) * (1 + 1 / 9007199254740992) < 1 := by norm_num
    linarith
  have hz_nonneg : (0 : ℚ) ≤ fl ((100 : ℚ) / fl (1 + fl (fl (1 / 20) * dq))) :=
    fl_nonneg _ harg_nonneg
  show pyTrunc (fl ((100 : ℚ) / fl (1 + fl (fl (1 / 20) * dq)))) = 0
  unfold pyTrunc
  rw [if_neg (not_lt.2 hz_nonneg)]
  rw [Int.floor_eq_zero_iff]
  constructor
  · exact hz_nonneg
  · exact hz_lt

/-- Closed form of `get_font_size` for every length: the binary64 evaluation
of `int(100 / (1 + 0.05 * |20 - L|))` equals `2000 / (20 + |20 - L|)` in
exact integer arithmetic. -/
theorem fontSize_closed (L : ℕ) :
    getFontSize L = ((2000 / (20 + (20 - (L : ℤ)).natAbs) : ℕ) : ℤ) := by
  by_cases hL : L ≤ 2000
  · exact fontSize_closed_small L hL
  · push_neg at hL
    rw [fontSize_large L hL]
    have hz : (2000 / (20 + (20 - (L : ℤ)).natAbs) : ℕ) = 0 :=
      Nat.div_eq_of_lt (by omega)
    rw [hz]
    rfl

/-- On the top row the interpolation returns the first colour channel
exactly: all roundings are exact there. -/
theorem gradChannel_row_zero (a b : ℤ) (h : ℕ) (ha0 : 0 ≤ a)
    (ha : a < 2 ^ 53) : gradChannel a b 0 h = a := by
  have h0 : (((0 : ℕ) : ℚ)) / (h : ℚ) = 0 := by simp
  have hfl1 : fl (1 : ℚ) = 1 := by
    have h1 := fl_intCast 1 (by norm_num) (by norm_num)
    simpa using h1
  have hfla : fl ((a : ℚ)) = (a : ℚ) := fl_intCast a ha0 ha
  show pyTrunc (fl (fl ((a : ℚ) * fl (1 - fl (((0 : ℕ) : ℚ) / (h : ℚ)))) +
      fl ((b : ℚ) * fl (((0 : ℕ) : ℚ) / (h : ℚ))))) = a
  rw [h0, fl_zero, mul_zero, fl_zero, sub_zero, hfl1, mul_one, hfla, add_zero,
    hfla]
  unfold pyTrunc
  rw [if_neg (not_lt.2 (by exact_mod_cast ha0 : (0 : ℚ) ≤ (a : ℚ)))]
  exact Int.floor_intCast a

/-- Pixel lookup in the generated gradient: every in-range pixel holds its
row's colour. -/
theorem pixelAt_eq (w h : ℕ) (c1 c2 : ℤ × ℤ × ℤ) (x y : ℕ) (hy : y < h)
    (hx : x < w) :
    pixelAt (generateGradient w h c1 c2) x y = some (gradRow c1 c2 y h) := by
  unfold pixelAt generateGradient
  rw [List.get?_map, List.get?_range hy]
  simp [List.get?_eq_get, hx]

/-- C1 — Dimension normalization contract: a value strictly inside the open
interval `(min, max)` is returned unchanged; an out-of-range value becomes
whichever bound is numerically closer (the minimum on the degenerate tie);
the result always lies in `[min, max]`, and normalisation is total, so no
error is ever raised. -/
theorem normalize_dim_contract (v mn mx : ℤ) (hlt : mn < mx) :
    (mn < v → v < mx → normalizeDim v mn mx = v) ∧
    ((v ≤ mn ∨ mx ≤ v) →
      (((v - mx).natAbs < (v - mn).natAbs → normalizeDim v mn mx = mx) ∧
        ((v - mn).natAbs < (v - mx).natAbs → normalizeDim v mn mx = mn))) ∧
    (mn ≤ normalizeDim v mn mx ∧ normalizeDim v mn mx ≤ mx) := by
  unfold normalizeDim
  split_ifs with h1 h2 <;> omega

/-- Witness for `normalize_dim_contract` at concrete inputs. -/
theorem normalize_dim_contract_witness :
    normalizeDim 17 0 10 = 10 ∧ normalizeDim 5 0 10 = 5 := by
  constructor
  · exact ((normalize_dim_contract 17 0 10 (by norm_num)).2.1
      (Or.inr (by norm_num))).1 (by decide)
  · exact (normalize_dim_contract 5 0 10 (by norm_num)).1 (by norm_num)
      (by norm_num)

/-- C10 — Tie-breaking of the clamp: when an out-of-range value is exactly
equidistant from both bounds the minimum is chosen (the strict comparison in
the source picks the maximum only when it is strictly closer); under
`min < max` the maximum is returned exactly when it is strictly closer. -/
theorem normalize_tie (v mn mx : ℤ) (hout : v ≤ mn ∨ mx ≤ v) :
    ((v - mx).natAbs = (v - mn).natAbs → normalizeDim v mn mx = mn) ∧
    (mn < mx →
      (normalizeDim v mn mx = mx ↔ (v - mx).natAbs < (v - mn).natAbs)) := by
  unfold normalizeDim
  split_ifs with h1 h2 <;> omega

/-- Witness for `normalize_tie` at concrete inputs. -/
theorem normalize_tie_witness :
    normalizeDim 7 7 7 = 7 ∧ normalizeDim 20 0 10 = 10 := by
  constructor
  · exact (normalize_tie 7 7 7 (Or.inl (by norm_num))).1 (by decide)
  · exact ((normalize_tie 20 0 10 (Or.inr (by norm_num))).2 (by norm_num)).2
      (by decide)

/-- C9 — A missing `text` parameter never yields a PNG: the handler reaches
`None.replace("_", " ")` and raises `AttributeError`, for every combination
of the remaining parameters. -/
theorem missing_text_attribute_error (mnW mxW mnH mxH w h : ℤ)
    (topc btmc : Option (List ℕ)) (rt rb : ℤ × ℤ × ℤ) :
    getThumbnail mnW mxW mnH mxH w h topc btmc none rt rb =
      Except.error PyError.attributeError := rfl

/-- Hexadecimal digits are not whitespace. -/
theorem hexDigitVal_not_space (c v : ℕ) (h : hexDigitVal c = some v) :
    pySpace c = false := by
  unfold hexDigitVal at h
  unfold pySpace
  split_ifs at h <;> simp only [decide_eq_false_iff_not] <;> omega

/-- Hexadecimal digits are not sign or hash characters. -/
theorem hexDigitVal_not_special (c v : ℕ) (h : hexDigitVal c = some v) :
    c ≠ 43 ∧ c ≠ 45 ∧ c ≠ 35 := by
  unfold hexDigitVal at h
  split_ifs at h <;> omega

/-- Lowercasing preserves the hexadecimal value of a code point. -/
theorem hexDigitVal_lower (c : ℕ) :
    hexDigitVal (lowerAscii c) = hexDigitVal c := by
  unfold lowerAscii hexDigitVal
  split_ifs <;> first
    | rfl
    | (exfalso; omega)
    | (congr 1; omega)

/-- Parsing a two-hex-digit slice with Python `int(_, 16)`. -/
theorem intFromHex_two (x y vx vy : ℕ) (hx : hexDigitVal x = some vx)
    (hy : hexDigitVal y = some vy) :
    intFromHex [x, y] = some (16 * (vx : ℤ) + (vy : ℤ)) := by
  obtain ⟨hx43, hx45, _⟩ := hexDigitVal_not_special x vx hx
  have hxs := hexDigitVal_not_space x vx hx
  unfold intFromHex
  rw [List.dropWhile_cons, if_neg (by simp [hxs])]
  simp only [hx43, hx45, List.takeWhile_cons, List.dropWhile_cons, hx, hy,
    Option.isSome_some, List.takeWhile_nil, List.dropWhile_nil, if_true,
    if_false]
  simp only [or_self, if_false, List.takeWhile_cons, hx, hy, Option.isSome_some,
    if_true, List.takeWhile_nil, List.dropWhile_cons, List.dropWhile_nil]
  norm_num [List.foldl]
  exact ⟨List.cons_ne_nil x [y], by rw [hx, hy]; norm_num⟩

/-- Parsing a single-hex-digit slice with Python `int(_, 16)`. -/
theorem intFromHex_one (x vx : ℕ) (hx : hexDigitVal x = some vx) :
    intFromHex [x] = some ((vx : ℤ)) := by
  obtain ⟨hx43, hx45, _⟩ := hexDigitVal_not_special x vx hx
  have hxs := hexDigitVal_not_space x vx hx
  unfold intFromHex
  rw [List.dropWhile_cons, if_neg (by simp [hxs])]
  simp only [hx43, hx45, List.takeWhile_cons, List.dropWhile_cons, hx,
    Option.isSome_some, List.takeWhile_nil, List.dropWhile_nil, if_true,
    if_false, or_self]
  norm_num [List.foldl]
  rw [hx]
  rfl

/-- Colour parsing of a six-hex-digit string with an optional leading hash:
the three byte groups are decoded exactly, case-insensitively. -/
theorem colorFromHex_sixhex (p : List ℕ) (hp : p = [] ∨ p = [35])
    (a b c d e f va vb vc vd ve vf : ℕ)
    (ha : hexDigitVal a = some va) (hb : hexDigitVal b = some vb)
    (hc : hexDigitVal c = some vc) (hd : hexDigitVal d = some vd)
    (he : hexDigitVal e = some ve) (hf : hexDigitVal f = some vf) :
    colorFromHex (p ++ [a, b, c, d, e, f]) =
      some (16 * (va : ℤ) + vb, 16 * (vc : ℤ) + vd, 16 * (ve : ℤ) + vf) := by
  have ha35 : (a == 35) = false := by
    have h0 := (hexDigitVal_not_special a va ha).2.2
    simp [h0]
  have hstrip : (p ++ [a, b, c, d, e, f]).dropWhile (fun x => x == 35) =
      [a, b, c, d, e, f] := by
    rcases hp with h | h <;> subst h <;> simp [List.dropWhile_cons, ha35]
  unfold colorFromHex
  rw [hstrip]
  simp only [List.map_cons, List.map_nil]
  have hs1 : pySlice [lowerAscii a, lowerAscii b, lowerAscii c, lowerAscii d,
      lowerAscii e, lowerAscii f] 0 2 = [lowerAscii a, lowerAscii b] := rfl
  have hs2 : pySlice [lowerAscii a, lowerAscii b, lowerAscii c, lowerAscii d,
      lowerAscii e, lowerAscii f] 2 4 = [lowerAscii c, lowerAscii d] := rfl
  have hs3 : pySlice [lowerAscii a, lowerAscii b, lowerAscii c, lowerAscii d,
      lowerAscii e, lowerAscii f] 4 6 = [lowerAscii e, lowerAscii f] := rfl
  rw [hs1, hs2, hs3]
  rw [intFromHex_two _ _ _ _ (by rw [hexDigitVal_lower]; exact ha)
      (by rw [hexDigitVal_lower]; exact hb),
    intFromHex_two _ _ _ _ (by rw [hexDigitVal_lower]; exact hc)
      (by rw [hexDigitVal_lower]; exact hd),
    intFromHex_two _ _ _ _ (by rw [hexDigitVal_lower]; exact he)
      (by rw [hexDigitVal_lower]; exact hf)]

/-- C4 — Colour decoding: every string of exactly six hexadecimal digits,
optionally preceded by one `#`, resolves to the exact decoded RGB triple
(case-insensitively, bytes from positions 0-1, 2-3, 4-5), for every value of
the random fallback. -/
theorem resolve_color_sixhex (p : List ℕ) (hp : p = [] ∨ p = [35])
    (a b c d e f va vb vc vd ve vf : ℕ)
    (ha : hexDigitVal a = some va) (hb : hexDigitVal b = some vb)
    (hc : hexDigitVal c = some vc) (hd : hexDigitVal d = some vd)
    (he : hexDigitVal e = some ve) (hf : hexDigitVal f = some vf)
    (rnd : ℤ × ℤ × ℤ) :
    resolveColor (some (p ++ [a, b, c, d, e, f])) rnd =
      (16 * (va : ℤ) + vb, 16 * (vc : ℤ) + vd, 16 * (ve : ℤ) + vf) := by
  simp only [resolveColor,
    colorFromHex_sixhex p hp a b c d e f va vb vc vd ve vf ha hb hc hd he hf]

/-- Witness for `resolve_color_sixhex`: the spec examples
`resolveColor "#FF0000" = (255, 0, 0)` and `resolveColor "00ff00" = (0, 255, 0)`. -/
theorem resolve_color_sixhex_witness :
    resolveColor (some [35, 70, 70, 48, 48, 48, 48]) (1, 2, 3) = (255, 0, 0) ∧
    resolveColor (some [48, 48, 102, 102, 48, 48]) (9, 9, 9) = (0, 255, 0) := by
  constructor
  · exact (resolve_color_sixhex [35] (Or.inr rfl) 70 70 48 48 48 48
      15 15 0 0 0 0 (by decide) (by decide) (by decide) (by decide)
      (by decide) (by decide) (1, 2, 3)).trans (by norm_num)
  · exact (resolve_color_sixhex [] (Or.inl rfl) 48 48 102 102 48 48
      0 0 15 15 0 0 (by decide) (by decide) (by decide) (by decide)
      (by decide) (by decide) (9, 9, 9)).trans (by norm_num)

/-- C6 counterexample — the malformed colour string `"-1-2-3"` (six
characters, not six hex digits) parses without error to `(-1, -2, -3)`,
whose channels are not in `[0, 255]`. -/
theorem malformed_color_counterexample :
    resolveColor (some [45, 49, 45, 50, 45, 51]) (7, 7, 7) = (-1, -2, -3) ∧
    ¬ validRGB (-1, -2, -3) ∧
    (([45, 49, 45, 50, 45, 51].dropWhile (fun x => x == 35)).all
      (fun x => (hexDigitVal x).isSome)) = false := by
  decide

/-- C6 amended — when the slice parse of a present colour string raises
`ValueError`, resolution returns the random fallback unchanged, which is a
valid RGB triple; no error reaches the caller. -/
theorem malformed_color_fallback_valid (s : List ℕ) (fb : ℤ × ℤ × ℤ)
    (hfb : validRGB fb) (hfail : colorFromHex s = none) :
    resolveColor (some s) fb = fb ∧ validRGB (resolveColor (some s) fb) := by
  have h : resolveColor (some s) fb = fb := by
    simp only [resolveColor, hfail]
  refine ⟨h, ?_⟩
  rw [h]
  exact hfb

/-- Witness for `malformed_color_fallback_valid` at the spec example
`"zzzzzz"`. -/
theorem malformed_color_fallback_valid_witness :
    resolveColor (some [122, 122, 122, 122, 122, 122]) (1, 2, 3) = (1, 2, 3) ∧
    validRGB (resolveColor (some [122, 122, 122, 122, 122, 122]) (1, 2, 3)) :=
  malformed_color_fallback_valid _ _ (by decide) (by decide)

/-- C7 counterexample — the five-character string `"12345"` is not three
2-character hex byte groups, yet no fallback happens: it parses to
`(0x12, 0x34, 0x5) = (18, 52, 5)` regardless of the random triple. -/
theorem parse_fallback_counterexample :
    (([49, 50, 51, 52, 53].dropWhile (fun x => x == 35)).length = 5) ∧
    resolveColor (some [49, 50, 51, 52, 53]) (0, 0, 0) = (18, 52, 5) ∧
    ((18, 52, 5) : ℤ × ℤ × ℤ) ≠ (0, 0, 0) := by
  decide

/-- C7 amended — the random fallback is used exactly when the three-slice
parse raises: a failed parse returns the fallback, a successful parse returns
the parsed triple (never surfacing an error), and any string whose stripped
lowercased form starts with at least five hex digits (among its first six
characters) parses without fallback — e.g. five-character or over-long hex
strings. -/
theorem fallback_condition :
    (∀ (s : List ℕ) (fb : ℤ × ℤ × ℤ), colorFromHex s = none →
      resolveColor (some s) fb = fb) ∧
    (∀ (s : List ℕ) (fb t : ℤ × ℤ × ℤ), colorFromHex s = some t →
      resolveColor (some s) fb = t) ∧
    (∀ s : List ℕ,
      5 ≤ ((s.dropWhile (fun x => x == 35)).map lowerAscii).length →
      (∀ c ∈ ((s.dropWhile (fun x => x == 35)).map lowerAscii).take 6,
        (hexDigitVal c).isSome = true) →
      colorFromHex s ≠ none) := by
  refine ⟨?_, ?_, ?_⟩
  · intro s fb hf
    simp only [resolveColor, hf]
  · intro s fb t hf
    simp only [resolveColor, hf]
  · intro s h5 hhex
    unfold colorFromHex
    set u := (s.dropWhile (fun x => x == 35)).map lowerAscii with hu
    clear_value u
    rcases u with _ | ⟨a, _ | ⟨b, _ | ⟨c, _ | ⟨d, _ | ⟨e, rest⟩⟩⟩⟩⟩
    · simp at h5
    · simp at h5
    · simp at h5
    · simp at h5
    · simp at h5
    obtain ⟨va, hva⟩ := Option.isSome_iff_exists.1
      (hhex a (by simp [List.take_succ_cons]))
    obtain ⟨vb, hvb⟩ := Option.isSome_iff_exists.1
      (hhex b (by simp [List.take_succ_cons]))
    obtain ⟨vc, hvc⟩ := Option.isSome_iff_exists.1
      (hhex c (by simp [List.take_succ_cons]))
    obtain ⟨vd, hvd⟩ := Option.isSome_iff_exists.1
      (hhex d (by simp [List.take_succ_cons]))
    obtain ⟨ve, hve⟩ := Option.isSome_iff_exists.1
      (hhex e (by simp [List.take_succ_cons]))
    have hs1 : pySlice (a :: b :: c :: d :: e :: rest) 0 2 = [a, b] := rfl
    have hs2 : pySlice (a :: b :: c :: d :: e :: rest) 2 4 = [c, d] := rfl
    cases rest with
    | nil =>
      have hs3 : pySlice [a, b, c, d, e] 4 6 = [e] := rfl
      simp only [hs1, hs2, hs3, intFromHex_two a b va vb hva hvb,
        intFromHex_two c d vc vd hvc hvd, intFromHex_one e ve hve]
      simp
    | cons f rest' =>
      obtain ⟨vf, hvf⟩ := Option.isSome_iff_exists.1
        (hhex f (by simp [List.take_succ_cons]))
      have hs3 : pySlice (a :: b :: c :: d :: e :: f :: rest') 4 6 =
          [e, f] := rfl
      simp only [hs1, hs2, hs3, intFromHex_two a b va vb hva hvb,
        intFromHex_two c d vc vd hvc hvd, intFromHex_two e f ve vf hve hvf]
      simp

/-- C2 counterexample — at width 1, height 5, colours white over black, the
bottom row's pixel is `(50, 50, 50)` while the exact-rational formula
`⌊255 * (1 - 4/5) + 0 * (4/5)⌋` gives 51: binary64 rounding loses one unit. -/
theorem gradient_formula_counterexample :
    pixelAt (generateGradient 1 5 (255, 255, 255) (0, 0, 0)) 0 4 =
      some (50, 50, 50) ∧
    ⌊(255 : ℚ) * (1 - 4 / 5) + 0 * (4 / 5)⌋ = 51 ∧ (50 : ℤ) ≠ 51 := by
  refine ⟨?_, ?_, by norm_num⟩
  · rw [pixelAt_eq 1 5 (255, 255, 255) (0, 0, 0) 0 4 (by norm_num)
      (by norm_num)]
    have hch : gradChannel 255 0 4 5 = 50 := by
      rw [gradChannel_eq_mirror 255 0 4 5 (by norm_num) (by norm_num)
        (by norm_num) (by norm_num)]
      decide
    show some (gradChannel 255 0 4 5, gradChannel 255 0 4 5,
      gradChannel 255 0 4 5) = some (50, 50, 50)
    rw [hch]
  · have hv : (255 : ℚ) * (1 - 4 / 5) + 0 * (4 / 5) = ((51 : ℤ) : ℚ) := by
      norm_num
    rw [hv, Int.floor_intCast]

/-- C2 amended — every horizontal row of the generated gradient is uniform,
its colour being the binary64 evaluation of
`int(c1[i] * (1 - y/h) + c2[i] * (y/h))` channelwise (which can differ by one
from the exact-rational floor), and row 0 equals the top colour exactly
whenever its channels are bytes. -/
theorem gradient_rows_uniform (w h : ℕ) (c1 c2 : ℤ × ℤ × ℤ) (x y : ℕ)
    (hy : y < h) (hx : x < w) :
    pixelAt (generateGradient w h c1 c2) x y = some (gradRow c1 c2 y h) ∧
    (validRGB c1 →
      pixelAt (generateGradient w h c1 c2) x 0 = some c1) := by
  constructor
  · exact pixelAt_eq w h c1 c2 x y hy hx
  · intro hv
    rw [pixelAt_eq w h c1 c2 x 0 (by omega) hx]
    have hb : ∀ z : ℤ, z ≤ 255 → z < 2 ^ 53 := fun z hz =>
      lt_of_le_of_lt hz (by norm_num)
    have e1 : gradChannel c1.1 c2.1 0 h = c1.1 :=
      gradChannel_row_zero _ _ _ hv.1 (hb _ hv.2.1)
    have e2 : gradChannel c1.2.1 c2.2.1 0 h = c1.2.1 :=
      gradChannel_row_zero _ _ _ hv.2.2.1 (hb _ hv.2.2.2.1)
    have e3 : gradChannel c1.2.2 c2.2.2 0 h = c1.2.2 :=
      gradChannel_row_zero _ _ _ hv.2.2.2.2.1 (hb _ hv.2.2.2.2.2)
    unfold gradRow
    rw [e1, e2, e3]

/-- Witness for `gradient_rows_uniform` at a concrete pixel. -/
theorem gradient_rows_uniform_witness :
    pixelAt (generateGradient 2 3 (10, 20, 30) (1, 2, 3)) 1 2 =
      some (gradRow (10, 20, 30) (1, 2, 3) 2 3) ∧
    (validRGB (10, 20, 30) →
      pixelAt (generateGradient 2 3 (10, 20, 30) (1, 2, 3)) 1 0 =
        some (10, 20, 30)) :=
  gradient_rows_uniform 2 3 (10, 20, 30) (1, 2, 3) 1 2 (by norm_num)
    (by norm_num)

/-- C3 counterexample — at text length 22 the source computes font size 90
(truncation), while rounding the same expression gives 91. -/
theorem font_size_round_counterexample :
    getFontSize 22 = 90 ∧
    round ((100 : ℚ) / (1 + 1 / 20 * |(20 : ℚ) - 22|)) = 91 ∧
    (90 : ℤ) ≠ 91 := by
  refine ⟨?_, ?_, by norm_num⟩
  · rw [getFontSize_eq_mirror 22]
    decide
  · have h1 : (100 : ℚ) / (1 + 1 / 20 * |(20 : ℚ) - 22|) = 1000 / 11 := by
      rw [show |(20 : ℚ) - 22| = 2 by norm_num]
      norm_num
    rw [h1, round_eq, show (1000 : ℚ) / 11 + 1 / 2 = 2011 / 22 by norm_num]
    rw [Int.floor_eq_iff]
    constructor <;> norm_num

/-- C3 amended — the font size is the truncation (not the rounding) of
`100 / (1 + 0.05 * |20 - L|)`: for every length it equals the exact floor
`⌊100 / (1 + |20 - L| / 20)⌋`, and it is 100 exactly for length 20. -/
theorem font_size_trunc_formula (L : ℕ) :
    getFontSize L =
      ⌊(100 : ℚ) / (1 + 1 / 20 * ((20 - (L : ℤ)).natAbs : ℚ))⌋ ∧
    (getFontSize L = 100 ↔ L = 20) := by
  have hclosed := fontSize_closed L
  constructor
  · rw [hclosed]
    have hq : (100 : ℚ) / (1 + 1 / 20 * ((20 - (L : ℤ)).natAbs : ℚ)) =
        ((2000 : ℕ) : ℚ) / ((20 + (20 - (L : ℤ)).natAbs : ℕ) : ℚ) := by
      push_cast
      rw [div_eq_div_iff (by positivity) (by positivity)]
      ring
    rw [hq, floor_nat_div]
  · constructor
    · intro h100
      by_contra hne
      have hd1 : 1 ≤ (20 - (L : ℤ)).natAbs := by omega
      have hle : (2000 / (20 + (20 - (L : ℤ)).natAbs) : ℕ) ≤ 2000 / 21 :=
        Nat.div_le_div_left (by omega) (by omega)
      rw [hclosed] at h100
      have : (2000 / (20 + (20 - (L : ℤ)).natAbs) : ℕ) = 100 := by
        exact_mod_cast h100
      omega
    · intro h20
      subst h20
      rw [hclosed]
      decide

/-- C8 counterexample — lengths 49 and 50 deviate from 20 by 29 and 30, yet
both give font size 40: the decrease is not strict. -/
theorem font_mono_counterexample :
    ((20 - (49 : ℤ)).natAbs < (20 - (50 : ℤ)).natAbs) ∧
    ¬ (getFontSize 50 < getFontSize 49) := by
  constructor
  · decide
  · rw [getFontSize_eq_mirror 50, getFontSize_eq_mirror 49]
    decide

/-- C8 amended — the font size is antitone (non-strictly decreasing) in the
deviation `|20 - length|`: a length deviating at least as much never gets a
larger size. -/
theorem font_size_antitone (a b : ℕ)
    (h : (20 - (a : ℤ)).natAbs ≤ (20 - (b : ℤ)).natAbs) :
    getFontSize b ≤ getFontSize a := by
  rw [fontSize_closed a, fontSize_closed b]
  have hle : (2000 / (20 + (20 - (b : ℤ)).natAbs) : ℕ) ≤
      (2000 / (20 + (20 - (a : ℤ)).natAbs) : ℕ) :=
    Nat.div_le_div_left (by omega) (by omega)
  exact_mod_cast hle

/-- Witness for `font_size_antitone` at lengths 21 and 25. -/
theorem font_size_antitone_witness : getFontSize 25 ≤ getFontSize 21 :=
  font_size_antitone 21 25 (by decide)

/-- C5 counterexample — at the spec's own in-range size 1200 × 630 the
bottom row of a white-to-black gradient is exactly `(0, 0, 0)`: the gradient
does reach the bottom colour, contrary to the claim. -/
theorem gradient_bottom_black_counterexample :
    pixelAt (generateGradient 1200 630 (255, 255, 255) (0, 0, 0)) 0 629 =
      some (0, 0, 0) := by
  rw [pixelAt_eq 1200 630 (255, 255, 255) (0, 0, 0) 0 629 (by norm_num)
    (by norm_num)]
  have hch : gradChannel 255 0 629 630 = 0 := by
    have h0 := (gradLast_iff 630 (by norm_num) (by norm_num)).2 (by norm_num)
    simpa using h0
  show some (gradChannel 255 0 629 630, gradChannel 255 0 629 630,
    gradChannel 255 0 629 630) = some (0, 0, 0)
  rw [hch]

/-- C5 amended — row 0 of a white-to-black gradient is pure white for every
positive size; for heights up to 1024 the bottom row is exactly `(0, 0, 0)`
precisely when the height is at least 255 (so it is merely near-black only
for heights up to 254, and the default height 630 renders it exactly
black). -/
theorem gradient_edge_rows (w h : ℕ) (hw : 0 < w) (hh : 0 < h) :
    pixelAt (generateGradient w h (255, 255, 255) (0, 0, 0)) 0 0 =
      some (255, 255, 255) ∧
    (h ≤ 1024 →
      (pixelAt (generateGradient w h (255, 255, 255) (0, 0, 0)) 0 (h - 1) =
          some (0, 0, 0) ↔ 255 ≤ h)) := by
  constructor
  · rw [pixelAt_eq w h (255, 255, 255) (0, 0, 0) 0 0 hh hw]
    have e : gradChannel 255 0 0 h = 255 :=
      gradChannel_row_zero 255 0 h (by norm_num) (by norm_num)
    show some (gradChannel 255 0 0 h, gradChannel 255 0 0 h,
      gradChannel 255 0 0 h) = some (255, 255, 255)
    rw [e]
  · intro hb
    rw [pixelAt_eq w h (255, 255, 255) (0, 0, 0) 0 (h - 1) (by omega) hw]
    have hiff := gradLast_iff h hh hb
    show (some (gradChannel 255 0 (h - 1) h, gradChannel 255 0 (h - 1) h,
      gradChannel 255 0 (h - 1) h) = some ((0 : ℤ), (0 : ℤ), (0 : ℤ))) ↔
      255 ≤ h
    constructor
    · intro hs
      simp only [Option.some.injEq, Prod.mk.injEq] at hs
      exact hiff.1 hs.1
    · intro hge
      rw [hiff.2 hge]

/-- Witness for `gradient_edge_rows` at size 1 × 300. -/
theorem gradient_edge_rows_witness :
    pixelAt (generateGradient 1 300 (255, 255, 255) (0, 0, 0)) 0 0 =
      some (255, 255, 255) ∧
    (300 ≤ 1024 →
      (pixelAt (generateGradient 1 300 (255, 255, 255) (0, 0, 0)) 0
          (300 - 1) = some (0, 0, 0) ↔ 255 ≤ 300)) :=
  gradient_edge_rows 1 300 (by norm_num) (by norm_num)

/-- Witness for `fallback_condition`: `"12"` falls back, `"abcdef"` parses to
`(171, 205, 239)`, and `"12345"` does not fall back. -/
theorem fallback_condition_witness :
    resolveColor (some [49, 50]) (3, 4, 5) = (3, 4, 5) ∧
    resolveColor (some [97, 98, 99, 100, 101, 102]) (3, 4, 5) =
      (171, 205, 239) ∧
    colorFromHex [49, 50, 51, 52, 53] ≠ none := by
  refine ⟨fallback_condition.1 [49, 50] (3, 4, 5) (by decide),
    fallback_condition.2.1 [97, 98, 99, 100, 101, 102] (3, 4, 5)
      (171, 205, 239) (by decide),
    fallback_condition.2.2 [49, 50, 51, 52, 53] (by decide) (by decide)⟩
